import Mathlib

/-!
Shallow embedding of the searchine indexing core:
the document registry (`Collection` / `InvertedCollection`,
src/index/src/collection/mod.rs) and the frequency postings list
(`FrequencyPosting` / `FrequencyPostingsList`,
src/fingertips/src/postings/freq.rs).

Modelling conventions:
* `PathBuf` is modelled as `String`; `SystemTime` as `Nat`.
* `HashMap` is modelled as an association list in insertion order; a
  well-formed map has pairwise-distinct keys (`keysNodup`).  `HashMap::insert`
  overwrites the value at an existing key (`hmInsert`); `HashMap::remove`
  returns the removed value and deletes the binding.
* `HashSet<FrequencyPosting>` is modelled as a list of postings;
  `HashSet::insert` is a no-op when an element equal to the new one is already
  present, and equality of `FrequencyPosting` is by `doc_id` only, exactly as
  the `PartialEq`/`Hash` impls in freq.rs.
* Fallible filesystem metadata reads are modelled by an oracle
  `meta : Path → Option Time`; `none` is an I/O error.
* `next_id = self.index.len() as u32` keeps the u32 cast: `len % 2^32`.
-/

namespace Searchine

abbrev Path := String
abbrev Time := Nat

/-- `CollectionEntry` from collection/mod.rs: a document id (u32, modelled as
`Nat` produced by `% 2^32`) together with a last-modified timestamp. -/
structure CollectionEntry where
  document_id : Nat
  modified : Time
deriving DecidableEq

/-- `u32::MAX + 1`, the modulus of the `as u32` cast in `Collection::insert`. -/
def u32Mod : Nat := 2 ^ 32

/-- `HashMap::contains_key` on the association-list model. -/
def containsKey {κ ν : Type} [BEq κ] (m : List (κ × ν)) (k : κ) : Bool :=
  m.any (fun kv => kv.1 == k)

/-- `HashMap::insert` on the association-list model: overwrite the binding if
the key is present, otherwise append the new binding. -/
def hmInsert {κ ν : Type} [BEq κ] (m : List (κ × ν)) (k : κ) (v : ν) :
    List (κ × ν) :=
  if containsKey m k then
    m.map (fun kv => if kv.1 == k then (k, v) else kv)
  else
    m ++ [(k, v)]

/-- `Collection` from collection/mod.rs: a root directory plus the
path → entry index (a `HashMap`, modelled as an association list in insertion
order). -/
structure Collection where
  root_dir : Path
  index : List (Path × CollectionEntry)
deriving DecidableEq

/-- `Collection::default()`: empty root path, empty index. -/
def Collection.empty : Collection := ⟨"", []⟩

/-- The `HashMap` key-uniqueness invariant of the index. -/
def Collection.WF (c : Collection) : Prop :=
  (c.index.map Prod.fst).Nodup

instance (c : Collection) : Decidable c.WF := by
  unfold Collection.WF; infer_instance

/-- `Collection::insert`: if the path is unknown, read its modification time
(propagating an I/O error with `?` before any mutation), assign
`next_id = index.len() as u32` and store the new entry; if the path is known,
return `Ok(())` and change nothing.  The returned pair is (call result,
registry state after the call). -/
def Collection.insert (c : Collection) (meta : Path → Option Time) (p : Path) :
    Except Unit Unit × Collection :=
  if containsKey c.index p then
    (Except.ok (), c)
  else
    match meta p with
    | none => (Except.error (), c)
    | some t =>
      let next_id := c.index.length % u32Mod
      (Except.ok (), { c with index := hmInsert c.index p ⟨next_id, t⟩ })

/-- `Collection::from_paths` auxiliary: insert each path in order, stopping at
the first I/O error. -/
def fromPathsAux (meta : Path → Option Time) (c : Collection) :
    List Path → Except Unit Collection
  | [] => Except.ok c
  | p :: ps =>
    match c.insert meta p with
    | (Except.ok _, c1) => fromPathsAux meta c1 ps
    | (Except.error e, _) => Except.error e

/-- `Collection::from_paths`: build a registry by inserting each path into the
default (empty) registry in iteration order. -/
def Collection.from_paths (meta : Path → Option Time) (paths : List Path) :
    Except Unit Collection :=
  fromPathsAux meta Collection.empty paths

/-- `Collection::contains_path`. -/
def Collection.contains_path (c : Collection) (p : Path) : Bool :=
  containsKey c.index p

/-- `Collection::get_document_id`: `self.index.get(path)?.document_id`. -/
def Collection.get_document_id (c : Collection) (p : Path) : Option Nat :=
  (c.index.lookup p).map CollectionEntry.document_id

/-- `Collection::get_last_modified`: `self.index.get(path)?.modified`. -/
def Collection.get_last_modified (c : Collection) (p : Path) : Option Time :=
  (c.index.lookup p).map CollectionEntry.modified

/-- `Collection::get_modified`: same body as `get_last_modified`. -/
def Collection.get_modified (c : Collection) (p : Path) : Option Time :=
  (c.index.lookup p).map CollectionEntry.modified

/-- `Collection::remove`: `self.index.remove(path)` — returns the removed
entry (if any) and the registry with the binding deleted. -/
def Collection.remove (c : Collection) (p : Path) :
    Option CollectionEntry × Collection :=
  (c.index.lookup p, { c with index := c.index.filter (fun kv => kv.1 != p) })

/-- The persisted registry file: serde serializes `Collection` as one JSON
document holding `root_dir` and the `index` map as an object of
path → entry bindings, in iteration order. -/
structure RegistryFile where
  root_dir : Path
  entries : List (Path × CollectionEntry)

/-- `Collection::write_to_file`: serialize the whole registry. -/
def Collection.write_to_file (c : Collection) : RegistryFile :=
  ⟨c.root_dir, c.index⟩

/-- `Collection::from_file`: deserialize a registry; serde rebuilds the
`HashMap` by inserting each binding of the JSON object in turn. -/
def Collection.from_file (f : RegistryFile) : Collection :=
  ⟨f.root_dir, f.entries.foldl (fun m kv => hmInsert m kv.1 kv.2) []⟩

/-- `InvertedCollection` from collection/mod.rs: the id → path map. -/
structure InvertedCollection where
  inner : List (Nat × Path)

/-- `InvertedCollection::from_file`: load the registry from the file, then
collect `(entry.document_id, path)` over its index into a `HashMap`. -/
def InvertedCollection.from_file (f : RegistryFile) : InvertedCollection :=
  ⟨(Collection.from_file f).index.foldl
    (fun m kv => hmInsert m kv.2.document_id kv.1) []⟩

/-- `InvertedCollection::get_path`. -/
def InvertedCollection.get_path (ic : InvertedCollection) (i : Nat) : Option Path :=
  ic.inner.lookup i

/-- `FrequencyPosting` from freq.rs. -/
structure FrequencyPosting where
  doc_id : Nat
  frequency : Nat
deriving DecidableEq

/-- `FrequencyPosting::new`. -/
def FrequencyPosting.new (doc_id frequency : Nat) : FrequencyPosting :=
  ⟨doc_id, frequency⟩

/-- The `PartialEq`/`Hash` identity of `FrequencyPosting`: by `doc_id` only. -/
def FrequencyPosting.sameDoc (a b : FrequencyPosting) : Bool :=
  a.doc_id == b.doc_id

/-- `FrequencyPostingsList` from freq.rs: a `HashSet` of postings keyed by the
`doc_id`-only equality, modelled as the list of its elements. -/
structure FrequencyPostingsList where
  postings : List FrequencyPosting
deriving DecidableEq

/-- `FrequencyPostingsList::new`. -/
def FrequencyPostingsList.new : FrequencyPostingsList := ⟨[]⟩

/-- `PostingsList::add` for `FrequencyPostingsList`: `HashSet::insert`, which
keeps the set unchanged when an element equal (same `doc_id`) to the new one
is already present. -/
def FrequencyPostingsList.add (l : FrequencyPostingsList) (p : FrequencyPosting) :
    FrequencyPostingsList :=
  if l.postings.any (fun q => q.sameDoc p) then l else ⟨l.postings ++ [p]⟩

/-- `PostingsList::remove` for `FrequencyPostingsList`:
`retain(|posting| posting.doc_id() != doc_id)`. -/
def FrequencyPostingsList.remove (l : FrequencyPostingsList) (doc_id : Nat) :
    FrequencyPostingsList :=
  ⟨l.postings.filter (fun q => q.doc_id != doc_id)⟩

/-- `PostingsList::get` for `FrequencyPostingsList`:
`iter().find(|posting| posting.doc_id() == doc_id)`. -/
def FrequencyPostingsList.get (l : FrequencyPostingsList) (doc_id : Nat) :
    Option FrequencyPosting :=
  l.postings.find? (fun q => q.doc_id == doc_id)

/-- `PostingsList::len` for `FrequencyPostingsList`. -/
def FrequencyPostingsList.len (l : FrequencyPostingsList) : Nat :=
  l.postings.length

/-- The `HashSet` invariant: no two stored postings are equal, i.e. stored
`doc_id`s are pairwise distinct. -/
def FrequencyPostingsList.WF (l : FrequencyPostingsList) : Prop :=
  (l.postings.map FrequencyPosting.doc_id).Nodup

/-- A registry operation: `Collection::insert` or `Collection::remove`. -/
inductive RegOp where
  | ins (p : Path)
  | rem (p : Path)

/-- Whether a registry operation is an insert. -/
def RegOp.isIns : RegOp → Bool
  | .ins _ => true
  | .rem _ => false

/-- The registry state after one operation (the call result is dropped:
on an insert error the state is unchanged). -/
def applyOp (meta : Path → Option Time) (c : Collection) : RegOp → Collection
  | .ins p => (c.insert meta p).2
  | .rem p => (c.remove p).2

/-- The registry state after a sequence of operations. -/
def runOps (meta : Path → Option Time) (c : Collection) (ops : List RegOp) :
    Collection :=
  ops.foldl (applyOp meta) c

/-- The stored `document_id` values are pairwise distinct. -/
def idsDistinct (c : Collection) : Prop :=
  (c.index.map (fun kv => kv.2.document_id)).Nodup

instance (c : Collection) : Decidable (idsDistinct c) := by
  unfold idsDistinct; infer_instance

end Searchine

namespace Searchine

/-- A sample two-document registry used by concrete witnesses. -/
def sampleRegistry : Collection :=
  ⟨"root", [("a", ⟨0, 10⟩), ("b", ⟨1, 20⟩)]⟩

/-- A metadata oracle that reports time 0 for every path. -/
def metaZero : Path → Option Time := fun _ => some 0

/-- C3: on an empty `FrequencyPostingsList`, `add (new 5 1)` then
`add (new 5 99)` gives `len = 1` and `get 5` returning frequency 1: the second
add is a no-op because posting identity is by `doc_id` only. -/
theorem add_same_doc_is_noop :
    ((FrequencyPostingsList.new.add (FrequencyPosting.new 5 1)).add
        (FrequencyPosting.new 5 99)).len = 1 ∧
      ((FrequencyPostingsList.new.add (FrequencyPosting.new 5 1)).add
          (FrequencyPosting.new 5 99)).get 5 =
        some (FrequencyPosting.new 5 1) := by
  decide

/-- C9: `Collection::get_modified` and `Collection::get_last_modified` return
identical results on every registry and path. -/
theorem get_modified_eq_get_last_modified (c : Collection) (p : Path) :
    c.get_modified p = c.get_last_modified p := rfl

/-- The stored ids of a registry, in insertion order. -/
def idsOf (c : Collection) : List Nat :=
  c.index.map (fun kv => kv.2.document_id)

lemma insert_index_shape (c : Collection) (meta : Path → Option Time) (p : Path) :
    (c.insert meta p).2.index = c.index ∨
      ∃ t, (c.insert meta p).2.index =
        c.index ++ [(p, ⟨c.index.length % u32Mod, t⟩)] := by
  unfold Collection.insert
  by_cases h : containsKey c.index p
  · left; simp [h]
  · cases hm : meta p with
    | none => left; simp [h, hm]
    | some t =>
      right
      exact ⟨t, by simp [h, hm, hmInsert]⟩

lemma insert_length_le (c : Collection) (meta : Path → Option Time) (p : Path) :
    (c.insert meta p).2.index.length ≤ c.index.length + 1 := by
  rcases insert_index_shape c meta p with h | ⟨t, h⟩ <;> simp [h]

lemma insert_preserves_range (c : Collection) (meta : Path → Option Time) (p : Path)
    (hr : idsOf c = List.range c.index.length) (hlt : c.index.length < u32Mod) :
    idsOf (c.insert meta p).2 = List.range (c.insert meta p).2.index.length := by
  rcases insert_index_shape c meta p with h | ⟨t, h⟩
  · unfold idsOf; rw [h]; exact hr
  · unfold idsOf
    rw [h]
    simp only [List.map_append, List.map_cons, List.map_nil, List.length_append,
      List.length_cons, List.length_nil]
    rw [Nat.mod_eq_of_lt hlt]
    rw [show c.index.map (fun kv => kv.2.document_id) = idsOf c from rfl, hr]
    rw [List.range_succ]

lemma runOps_ins_only_range (meta : Path → Option Time) :
    ∀ (ops : List RegOp) (c : Collection),
      (∀ op ∈ ops, op.isIns = true) →
      idsOf c = List.range c.index.length →
      c.index.length + ops.length ≤ u32Mod →
      idsOf (runOps meta c ops) = List.range (runOps meta c ops).index.length := by
  intro ops
  induction ops with
  | nil => intro c _ hr _; simpa [runOps] using hr
  | cons op tl ih =>
    intro c hins hr hlen
    cases op with
    | rem p =>
      have := hins (RegOp.rem p) (by simp)
      simp [RegOp.isIns] at this
    | ins p =>
      have hlt : c.index.length < u32Mod := by
        simp only [List.length_cons] at hlen; omega
      have h1 := insert_preserves_range c meta p hr hlt
      have h2 : (c.insert meta p).2.index.length + tl.length ≤ u32Mod := by
        have := insert_length_le c meta p
        simp only [List.length_cons] at hlen; omega
      have hrun : runOps meta c (RegOp.ins p :: tl) =
          runOps meta (c.insert meta p).2 tl := rfl
      rw [hrun]
      exact ih _ (fun o ho => hins o (List.mem_cons_of_mem _ ho)) h1 h2

/-- C1 counterexample: starting from the empty registry, insert `"a"` and
`"b"`, remove `"a"`, then insert `"c"`.  Since `next_id` is the current size
of the index, `"c"` is assigned id 1, which `"b"` already holds: the stored
document ids are not pairwise distinct. -/
theorem ids_not_distinct_after_remove :
    ¬ idsDistinct (runOps metaZero Collection.empty
      [RegOp.ins "a", RegOp.ins "b", RegOp.rem "a", RegOp.ins "c"]) := by
  decide

/-- C1 (amended): for every sequence of insert operations (no removes, at most
`2^32` of them) run from the empty registry, the stored document ids are
pairwise distinct. -/
theorem insert_only_ids_distinct (meta : Path → Option Time) (ops : List RegOp)
    (h1 : ∀ op ∈ ops, op.isIns = true) (h2 : ops.length ≤ u32Mod) :
    idsDistinct (runOps meta Collection.empty ops) := by
  have hr : idsOf (runOps meta Collection.empty ops) =
      List.range (runOps meta Collection.empty ops).index.length :=
    runOps_ins_only_range meta ops Collection.empty h1
      (by simp [idsOf, Collection.empty])
      (by simpa [Collection.empty] using h2)
  unfold idsDistinct
  rw [show (runOps meta Collection.empty ops).index.map (fun kv => kv.2.document_id)
      = idsOf (runOps meta Collection.empty ops) from rfl, hr]
  exact List.nodup_range _

/-- C1 witness: two inserts from empty yield pairwise-distinct ids. -/
theorem insert_only_ids_distinct_witness :
    idsDistinct (runOps metaZero Collection.empty
      [RegOp.ins "a", RegOp.ins "b"]) :=
  insert_only_ids_distinct metaZero [RegOp.ins "a", RegOp.ins "b"]
    (by decide) (by decide)

end Searchine


namespace Searchine

lemma lookup_filter_self (l : List (Path × CollectionEntry)) (p : Path) :
    (l.filter (fun kv => kv.1 != p)).lookup p = none := by
  induction l with
  | nil => simp
  | cons kv tl ih =>
    obtain ⟨k, v⟩ := kv
    by_cases hk : k = p
    · subst hk
      simpa [List.filter_cons] using ih
    · have hk2 : (k != p) = true := bne_iff_ne.mpr hk
      simp [List.filter_cons, hk2, List.lookup_cons,
        beq_false_of_ne (Ne.symm hk), ih]

lemma lookup_filter_ne (l : List (Path × CollectionEntry)) (p q : Path)
    (h : q ≠ p) :
    (l.filter (fun kv => kv.1 != p)).lookup q = l.lookup q := by
  induction l with
  | nil => simp
  | cons kv tl ih =>
    obtain ⟨k, v⟩ := kv
    by_cases hk : k = p
    · subst hk
      simp [List.filter_cons, List.lookup_cons, beq_false_of_ne h, ih]
    · have hk2 : (k != p) = true := bne_iff_ne.mpr hk
      by_cases hq : q = k
      · subst hq
        simp [List.filter_cons, hk2]
      · simp [List.filter_cons, hk2, List.lookup_cons,
          beq_false_of_ne hq, ih]

lemma lookup_isSome_eq_containsKey (l : List (Path × CollectionEntry)) (p : Path) :
    (l.lookup p).isSome = containsKey l p := by
  induction l with
  | nil => simp [containsKey]
  | cons kv tl ih =>
    obtain ⟨k, v⟩ := kv
    by_cases hq : p = k
    · subst hq
      simp [containsKey, List.any_cons]
    · simp only [containsKey, List.any_cons, List.lookup_cons,
        beq_false_of_ne hq, beq_false_of_ne (Ne.symm hq), Bool.false_or]
      exact ih

/-- C5: inserting a path that the registry already contains returns `Ok(())`
and leaves the registry state (all entries, ids and modified times) exactly as
it was, whatever the metadata oracle now reports for that path. -/
theorem insert_known_path_noop (c : Collection) (meta : Path → Option Time)
    (p : Path) (h : c.contains_path p = true) :
    c.insert meta p = (Except.ok (), c) := by
  unfold Collection.insert
  unfold Collection.contains_path at h
  simp [h]

/-- C5 witness: re-inserting `"a"` into the sample registry under an oracle
reporting a changed mtime is a no-op. -/
theorem insert_known_path_noop_witness :
    sampleRegistry.contains_path "a" = true ∧
      sampleRegistry.insert (fun _ => some 99) "a" = (Except.ok (), sampleRegistry) :=
  ⟨by decide, insert_known_path_noop sampleRegistry (fun _ => some 99) "a" (by decide)⟩

/-- C6: `remove` returns the entry previously stored for the path (`none` when
the path is unknown, and it is `some` exactly when `contains_path` held);
afterwards `get_document_id` on that path is `none`, and every other path keeps
its previous document id (no renumbering). -/
theorem remove_spec (c : Collection) (p : Path) :
    (c.remove p).1 = c.index.lookup p ∧
      (c.remove p).1.isSome = c.contains_path p ∧
      (c.remove p).2.get_document_id p = none ∧
      ∀ q, q ≠ p → (c.remove p).2.get_document_id q = c.get_document_id q := by
  refine ⟨rfl, lookup_isSome_eq_containsKey c.index p, ?_, ?_⟩
  · unfold Collection.get_document_id Collection.remove
    simp [lookup_filter_self]
  · intro q hq
    unfold Collection.get_document_id Collection.remove
    simp [lookup_filter_ne _ _ _ hq]

/-- C6 witness: removing `"a"` from the sample registry returns its entry,
afterwards `"a"` has no id and `"b"` keeps id 1. -/
theorem remove_spec_witness :
    (sampleRegistry.remove "a").1 = some ⟨0, 10⟩ ∧
      ("b" : Path) ≠ "a" ∧
      (sampleRegistry.remove "a").2.get_document_id "b" =
        sampleRegistry.get_document_id "b" := by
  refine ⟨?_, by decide, (remove_spec sampleRegistry "a").2.2.2 "b" (by decide)⟩
  rw [(remove_spec sampleRegistry "a").1]
  decide

/-- C10: when the path is unknown and the metadata read fails, `insert`
returns the I/O error and the registry is exactly its prior state: no entry is
added, no id is consumed, and all lookups behave as before. -/
theorem insert_io_error_atomic (c : Collection) (meta : Path → Option Time)
    (p : Path) (h1 : c.contains_path p = false) (h2 : meta p = none) :
    c.insert meta p = (Except.error (), c) := by
  unfold Collection.insert
  unfold Collection.contains_path at h1
  simp [h1, h2]

/-- C10 witness: inserting an unknown path under an always-failing oracle
leaves the sample registry unchanged. -/
theorem insert_io_error_atomic_witness :
    sampleRegistry.contains_path "c" = false ∧
      sampleRegistry.insert (fun _ => none) "c" =
        (Except.error (), sampleRegistry) :=
  ⟨by decide, insert_io_error_atomic sampleRegistry (fun _ => none) "c"
    (by decide) rfl⟩

end Searchine

namespace Searchine

lemma containsKey_append_single {κ ν : Type} [BEq κ] (m : List (κ × ν))
    (k q : κ) (v : ν) :
    containsKey (m ++ [(k, v)]) q = (containsKey m q || (k == q)) := by
  simp [containsKey, List.any_append]

lemma hmInsert_fresh {κ ν : Type} [BEq κ] (m : List (κ × ν)) (k : κ) (v : ν)
    (h : containsKey m k = false) :
    hmInsert m k v = m ++ [(k, v)] := by
  unfold hmInsert
  simp [h]

lemma foldl_hmInsert_fresh {κ ν : Type} [BEq κ] [LawfulBEq κ] :
    ∀ (l m : List (κ × ν)),
      (l.map Prod.fst).Nodup →
      (∀ kv ∈ l, containsKey m kv.1 = false) →
      l.foldl (fun acc kv => hmInsert acc kv.1 kv.2) m = m ++ l := by
  intro l
  induction l with
  | nil => intro m _ _; simp
  | cons kv tl ih =>
    intro m hnd hfresh
    obtain ⟨k, v⟩ := kv
    simp only [List.map_cons, List.nodup_cons] at hnd
    have h1 : containsKey m k = false := hfresh (k, v) (List.mem_cons_self _ _)
    have hfresh2 : ∀ q ∈ tl, containsKey (m ++ [(k, v)]) q.1 = false := by
      intro q hq
      have hk : k ≠ q.1 := fun e => hnd.1 (by rw [e]; exact List.mem_map_of_mem Prod.fst hq)
      rw [containsKey_append_single, hfresh q (List.mem_cons_of_mem _ hq),
        beq_false_of_ne hk]
      rfl
    simp only [List.foldl_cons]
    rw [hmInsert_fresh _ _ _ h1, ih _ hnd.2 hfresh2]
    simp

lemma foldl_hmInsert_nil {κ ν : Type} [BEq κ] [LawfulBEq κ] (l : List (κ × ν))
    (h : (l.map Prod.fst).Nodup) :
    l.foldl (fun acc kv => hmInsert acc kv.1 kv.2) [] = l := by
  simpa using foldl_hmInsert_fresh l [] h (fun kv _ => rfl)

lemma from_file_write_to_file (c : Collection) (h : c.WF) :
    Collection.from_file c.write_to_file = c := by
  unfold Collection.from_file Collection.write_to_file
  rw [foldl_hmInsert_nil c.index h]

/-- C4: for every well-formed registry (pairwise-distinct paths, the `HashMap`
invariant), writing it to a file and loading the file back yields the same
registry: the same root directory and the same path → (document_id, modified)
mapping. -/
theorem write_to_file_round_trip (c : Collection) (h : c.WF) :
    Collection.from_file c.write_to_file = c :=
  from_file_write_to_file c h

/-- C4 witness: the sample registry round-trips through persistence. -/
theorem write_to_file_round_trip_witness :
    sampleRegistry.WF ∧
      Collection.from_file sampleRegistry.write_to_file = sampleRegistry :=
  ⟨by decide, write_to_file_round_trip sampleRegistry (by decide)⟩

lemma lookup_eq_some_of_mem {κ ν : Type} [BEq κ] [LawfulBEq κ] :
    ∀ (l : List (κ × ν)) (k : κ) (v : ν),
      (l.map Prod.fst).Nodup → (k, v) ∈ l → l.lookup k = some v := by
  intro l
  induction l with
  | nil => intro k v _ hm; cases hm
  | cons kv tl ih =>
    intro k v hnd hm
    obtain ⟨a, b⟩ := kv
    simp only [List.map_cons, List.nodup_cons] at hnd
    rcases List.mem_cons.mp hm with h | h
    · rw [Prod.mk.injEq] at h
      obtain ⟨rfl, rfl⟩ := h
      simp
    · have hka : k ≠ a := by
        intro e
        subst e
        exact hnd.1 (List.mem_map_of_mem Prod.fst h)
      simp [List.lookup_cons, beq_false_of_ne hka, ih k v hnd.2 h]

lemma lookup_eq_none_of_forall {κ ν : Type} [BEq κ] [LawfulBEq κ]
    (l : List (κ × ν)) (k : κ) (h : ∀ kv ∈ l, kv.1 ≠ k) :
    l.lookup k = none := by
  rw [List.lookup_eq_none_iff]
  intro q hq
  simpa using fun e => h q hq e.symm

end Searchine

namespace Searchine

/-- A sample postings list used by concrete witnesses. -/
def samplePostings : FrequencyPostingsList :=
  ⟨[⟨1, 5⟩, ⟨2, 3⟩, ⟨3, 7⟩]⟩

lemma countP_same_doc_le_one :
    ∀ (xs : List FrequencyPosting) (i : Nat),
      (xs.map FrequencyPosting.doc_id).Nodup →
      xs.countP (fun q => q.doc_id == i) ≤ 1 := by
  intro xs
  induction xs with
  | nil => intro i _; simp
  | cons x tl ih =>
    intro i h
    simp only [List.map_cons, List.nodup_cons] at h
    rw [List.countP_cons]
    by_cases hx : x.doc_id = i
    · have h0 : tl.countP (fun q => q.doc_id == i) = 0 := by
        rw [List.countP_eq_zero]
        intro a ha
        simp only [beq_iff_eq]
        intro hai
        apply h.1
        rw [hx, ← hai]
        exact List.mem_map_of_mem _ ha
      simp [hx, h0]
    · simpa [hx] using ih i h.2

instance (l : FrequencyPostingsList) : Decidable l.WF := by
  unfold FrequencyPostingsList.WF; infer_instance

lemma length_filter_doc_sub (xs : List FrequencyPosting) (i : Nat) :
    xs.length - (xs.filter (fun q => q.doc_id != i)).length =
      xs.countP (fun q => q.doc_id == i) := by
  induction xs with
  | nil => simp
  | cons x tl ih =>
    have hle := List.length_filter_le
      (fun (q : FrequencyPosting) => q.doc_id != i) tl
    rw [List.filter_cons, List.countP_cons, List.length_cons]
    by_cases hx : x.doc_id = i
    · simp only [hx, bne_self_eq_false, Bool.false_eq_true, if_false,
        beq_self_eq_true, if_true]
      omega
    · simp only [bne_iff_ne, ne_eq, hx, not_false_eq_true, if_true,
        List.length_cons, beq_iff_eq, if_false]
      omega

/-- C7: for every well-formed postings list (the `HashSet` invariant: stored
doc ids are pairwise distinct) and every document id, after `remove(id)` a
`get(id)` returns none, and `len()` decreases by at most one. -/
theorem remove_postings_spec (l : FrequencyPostingsList) (i : Nat)
    (h : l.WF) :
    (l.remove i).get i = none ∧
      (l.remove i).len ≤ l.len ∧
      l.len - (l.remove i).len ≤ 1 := by
  refine ⟨?_, ?_, ?_⟩
  · unfold FrequencyPostingsList.get FrequencyPostingsList.remove
    rw [List.find?_eq_none]
    intro x hx
    have := (List.mem_filter.mp hx).2
    simp only [bne_iff_ne, ne_eq] at this
    simpa using this
  · exact List.length_filter_le _ _
  · unfold FrequencyPostingsList.len FrequencyPostingsList.remove
    rw [length_filter_doc_sub]
    exact countP_same_doc_le_one l.postings i h

/-- C7 witness: removing document 2 from the sample postings list makes
`get 2` none and shrinks the length by at most one. -/
theorem remove_postings_spec_witness :
    samplePostings.WF ∧
      (samplePostings.remove 2).get 2 = none ∧
      samplePostings.len - (samplePostings.remove 2).len ≤ 1 :=
  ⟨by decide, (remove_postings_spec samplePostings 2 (by decide)).1,
    (remove_postings_spec samplePostings 2 (by decide)).2.2⟩

end Searchine

namespace Searchine

/-- The three-document registry from the spec's Reverse-Registry property. -/
def threeRegistry : Collection :=
  ⟨"r", [("p1", ⟨0, 5⟩), ("p2", ⟨1, 6⟩), ("p3", ⟨2, 7⟩)]⟩

lemma inverted_inner (c : Collection) (h1 : c.WF) (h2 : idsDistinct c) :
    (InvertedCollection.from_file c.write_to_file).inner
      = c.index.map (fun kv => (kv.2.document_id, kv.1)) := by
  unfold InvertedCollection.from_file
  rw [from_file_write_to_file c h1]
  have hstep : (c.index.foldl (fun m kv => hmInsert m kv.2.document_id kv.1) []
        : List (Nat × Path))
      = (c.index.map (fun kv => (kv.2.document_id, kv.1))).foldl
          (fun acc kv => hmInsert acc kv.1 kv.2) [] := by
    rw [List.foldl_map]
  have hnd : ((c.index.map (fun kv => (kv.2.document_id, kv.1))).map Prod.fst).Nodup := by
    rw [List.map_map]
    exact h2
  rw [hstep, foldl_hmInsert_nil _ hnd]

/-- C8: for a Reverse Registry built from a persisted well-formed registry
with pairwise-distinct ids, `get_path` returns the path whose entry carries
the requested document id, and none when no entry carries that id. -/
theorem get_path_spec (c : Collection) (h1 : c.WF) (h2 : idsDistinct c) :
    (∀ p e, (p, e) ∈ c.index →
        (InvertedCollection.from_file c.write_to_file).get_path e.document_id
          = some p) ∧
      ∀ i, (∀ kv ∈ c.index, kv.2.document_id ≠ i) →
        (InvertedCollection.from_file c.write_to_file).get_path i = none := by
  have hinner := inverted_inner c h1 h2
  constructor
  · intro p e hm
    unfold InvertedCollection.get_path
    rw [hinner]
    apply lookup_eq_some_of_mem
    · rw [List.map_map]
      exact h2
    · exact List.mem_map_of_mem _ hm
  · intro i hi
    unfold InvertedCollection.get_path
    rw [hinner]
    apply lookup_eq_none_of_forall
    intro kv hkv
    obtain ⟨kv0, hkv0, rfl⟩ := List.mem_map.mp hkv
    exact hi kv0 hkv0

/-- C8 witness: on the persisted registry `{(p1,0),(p2,1),(p3,2)}`,
`get_path 1` is `p2` and `get_path 99` is absent. -/
theorem get_path_spec_witness :
    (InvertedCollection.from_file threeRegistry.write_to_file).get_path 1
        = some "p2" ∧
      (InvertedCollection.from_file threeRegistry.write_to_file).get_path 99
        = none :=
  ⟨(get_path_spec threeRegistry (by decide) (by decide)).1 "p2" ⟨1, 6⟩ (by decide),
    (get_path_spec threeRegistry (by decide) (by decide)).2 99 (by decide)⟩

end Searchine

namespace Searchine

/-- The index that a run of `from_paths` over fresh, accessible paths builds:
one entry per path, ids assigned from `start` with the u32 cast, times from
the metadata oracle. -/
def expectedEntries (meta : Path → Option Time) (start : Nat) :
    List Path → List (Path × CollectionEntry)
  | [] => []
  | p :: ps => (p, ⟨start % u32Mod, (meta p).getD 0⟩) ::
      expectedEntries meta (start + 1) ps

lemma expectedEntries_map_fst (meta : Path → Option Time) :
    ∀ (paths : List Path) (start : Nat),
      (expectedEntries meta start paths).map Prod.fst = paths := by
  intro paths
  induction paths with
  | nil => intro start; rfl
  | cons p ps ih => intro start; simp [expectedEntries, ih]

lemma expectedEntries_ids (meta : Path → Option Time) :
    ∀ (paths : List Path) (start : Nat),
      (expectedEntries meta start paths).map (fun kv => kv.2.document_id)
        = (List.range' start paths.length).map (fun n => n % u32Mod) := by
  intro paths
  induction paths with
  | nil => intro start; rfl
  | cons p ps ih =>
    intro start
    simp [expectedEntries, List.range'_succ, ih]

lemma expected_get_mem (meta : Path → Option Time) :
    ∀ (paths : List Path) (start i : Nat) (hi : i < paths.length),
      (paths.get ⟨i, hi⟩,
        (⟨(start + i) % u32Mod, (meta (paths.get ⟨i, hi⟩)).getD 0⟩ :
          CollectionEntry)) ∈ expectedEntries meta start paths := by
  intro paths
  induction paths with
  | nil => intro start i hi; simp at hi
  | cons p ps ih =>
    intro start i hi
    cases i with
    | zero => simp [expectedEntries, List.get]
    | succ j =>
      have hj : j < ps.length := by simpa using hi
      have hrec := ih (start + 1) j hj
      have harith : start + (j + 1) = (start + 1) + j := by omega
      simp only [expectedEntries]
      rw [show (p :: ps).get ⟨j + 1, hi⟩ = ps.get ⟨j, hj⟩ from rfl, harith]
      exact List.mem_cons_of_mem _ hrec

lemma fromPathsAux_ok (meta : Path → Option Time) :
    ∀ (paths : List Path) (c : Collection),
      paths.Nodup →
      (∀ p ∈ paths, (meta p).isSome = true) →
      (∀ p ∈ paths, containsKey c.index p = false) →
      fromPathsAux meta c paths = Except.ok
        ⟨c.root_dir, c.index ++ expectedEntries meta c.index.length paths⟩ := by
  intro paths
  induction paths with
  | nil =>
    intro c _ _ _
    simp [fromPathsAux, expectedEntries]
  | cons p ps ih =>
    intro c hnd hacc hfresh
    simp only [List.nodup_cons] at hnd
    have hc : containsKey c.index p = false := hfresh p (List.mem_cons_self _ _)
    obtain ⟨t, ht⟩ := Option.isSome_iff_exists.mp (hacc p (List.mem_cons_self _ _))
    have hins : c.insert meta p = (Except.ok (),
        ⟨c.root_dir, c.index ++ [(p, ⟨c.index.length % u32Mod, t⟩)]⟩) := by
      unfold Collection.insert
      simp [hc, ht, hmInsert_fresh _ _ _ hc]
    have hfresh2 : ∀ q ∈ ps, containsKey
        (c.index ++ [(p, (⟨c.index.length % u32Mod, t⟩ : CollectionEntry))]) q
          = false := by
      intro q hq
      have hpq : p ≠ q := fun hpq => hnd.1 (by rw [hpq]; exact hq)
      rw [containsKey_append_single, hfresh q (List.mem_cons_of_mem _ hq),
        beq_false_of_ne hpq]
      rfl
    have hrec := ih ⟨c.root_dir, c.index ++ [(p, ⟨c.index.length % u32Mod, t⟩)]⟩
      hnd.2 (fun q hq => hacc q (List.mem_cons_of_mem _ hq)) hfresh2
    simp only [fromPathsAux, hins]
    rw [hrec]
    simp [expectedEntries, ht, List.append_assoc]

/-- C2: inserting `n` distinct accessible paths into an empty registry (with
`n` within the u32 range) succeeds, assigns exactly the document ids
`0..n-1` in insertion order, and `get_document_id` returns for each path the
id it was assigned. -/
theorem from_paths_spec (meta : Path → Option Time) (paths : List Path)
    (h1 : paths.Nodup) (h2 : ∀ p ∈ paths, (meta p).isSome = true)
    (h3 : paths.length ≤ u32Mod) :
    ∃ c, Collection.from_paths meta paths = Except.ok c ∧
      idsOf c = List.range paths.length ∧
      ∀ i, ∀ hi : i < paths.length,
        c.get_document_id (paths.get ⟨i, hi⟩) = some i := by
  refine ⟨⟨"", expectedEntries meta 0 paths⟩, ?_, ?_, ?_⟩
  · unfold Collection.from_paths
    have := fromPathsAux_ok meta paths Collection.empty h1 h2 (fun p _ => rfl)
    simpa [Collection.empty] using this
  · unfold idsOf
    rw [expectedEntries_ids meta paths 0, ← List.range_eq_range']
    have hsm : ∀ x ∈ List.range paths.length, x % u32Mod = x := fun x hx =>
      Nat.mod_eq_of_lt (lt_of_lt_of_le (List.mem_range.mp hx) h3)
    rw [List.map_congr_left hsm]
    exact List.map_id _
  · intro i hi
    unfold Collection.get_document_id
    have hmem := expected_get_mem meta paths 0 i hi
    have hnd : ((expectedEntries meta 0 paths).map Prod.fst).Nodup := by
      rw [expectedEntries_map_fst]
      exact h1
    rw [show (⟨"", expectedEntries meta 0 paths⟩ : Collection).index
        = expectedEntries meta 0 paths from rfl]
    rw [lookup_eq_some_of_mem _ _ _ hnd hmem]
    simp [Nat.mod_eq_of_lt (lt_of_lt_of_le hi h3)]

/-- C2 witness: two distinct accessible paths get ids 0 and 1, and
`get_document_id` returns them. -/
theorem from_paths_spec_witness :
    ∃ c, Collection.from_paths metaZero ["a", "b"] = Except.ok c ∧
      idsOf c = List.range 2 ∧
      ∀ i, ∀ hi : i < (["a", "b"] : List Path).length,
        c.get_document_id ((["a", "b"] : List Path).get ⟨i, hi⟩) = some i :=
  from_paths_spec metaZero ["a", "b"] (by decide) (by decide) (by decide)

end Searchine
